import Mathlib

/-!
Verification development for a multi-tenant static asset server
(`src/index.js`, an Express application). The request pipeline is embedded
shallowly: paths are lists of characters, the filesystem is a pure map from
canonical paths to nodes, and the pipeline is a pure function from a request
to an outcome together with the list of absolute paths handed to the
filesystem layer (each `stat` or `read` call, in order). Node's posix
`path.join`/`path.normalize` are modelled for absolute left arguments, which
is the only way the server uses them (document roots are absolute).
-/

namespace StaticServer

abbrev Path := List Char

/-! ### Posix path normalization (`path.normalize` / `path.join`) -/

/-- Split a path into its `/`-separated segments (keeping empty segments,
as Node's normalization does before filtering them). -/
def splitSegs : Path → List (List Char)
  | [] => [[]]
  | c :: rest =>
    if c = '/' then [] :: splitSegs rest
    else
      match splitSegs rest with
      | [] => [[c]]
      | s :: ss => (c :: s) :: ss

/-- Rejoin segments with `/` separators. -/
def joinSegs : List (List Char) → Path
  | [] => []
  | [s] => s
  | s :: rest => s ++ '/' :: joinSegs rest

/-- Core of Node's `normalizeString` for absolute paths: drop empty and `.`
segments, let `..` pop the previous segment (dropping it at the root).
The accumulator holds the processed segments in reverse order. -/
def resolveCore : List (List Char) → List (List Char) → List (List Char)
  | acc, [] => acc
  | acc, s :: rest =>
    if s = [] ∨ s = ['.'] then resolveCore acc rest
    else if s = ['.', '.'] then resolveCore acc.tail rest
    else resolveCore (s :: acc) rest

def endsWithSlash (p : Path) : Bool := p.getLast? == some '/'

/-- Reassemble a normalized absolute path from its resolved segments: the
root when no segment survives, otherwise `/`-joined with the trailing
separator preserved. -/
def normAssemble (trail : Bool) (segs : List (List Char)) : Path :=
  if segs = [] then ['/']
  else if trail then ('/' :: joinSegs segs) ++ ['/']
  else '/' :: joinSegs segs

/-- Node's `path.normalize` for an absolute posix path: resolve `.`/`..`
segments structurally, collapse repeated separators, keep a single trailing
separator when the input had one and the result is not the root. -/
def normalizeAbs (p : Path) : Path :=
  normAssemble (endsWithSlash p) ((resolveCore [] (splitSegs p)).reverse)

/-- Node's `path.join(a, b)` for an absolute `a`: concatenate with a
separator and normalize. -/
def pathJoin (a b : Path) : Path := normalizeAbs (a ++ '/' :: b)

/-- Startup normalization of a configured root: `path.join(host.root, '/')`,
guaranteeing exactly one trailing separator (src/index.js lines 15-18). -/
def normRoot (r : Path) : Path := pathJoin r ['/']

/-! ### Safe path joiner (`safeJoin`, src/index.js lines 33-40) -/

/-- Join root and file, then require the root to be a literal prefix of the
normalized result (`newPath.indexOf(root) !== 0` check). -/
def safeJoin (root file : Path) : Option Path :=
  let newPath := pathJoin root file
  if root <+: newPath then some newPath else none

/-! ### Filesystem model -/

/-- A filesystem node: a regular file (with modification time and content
bytes) or a directory. -/
inductive FsNode where
  | file (mtime : Nat) (content : List Nat)
  | dir
  deriving DecidableEq, Repr

/-- A filesystem maps canonical absolute paths (no trailing separator,
except the root `/` itself) to nodes. -/
abbrev Fs := Path → Option FsNode

/-- `fs.stat`: a trailing separator resolves only if the target is a
directory (a trailing separator on a regular file is an `ENOTDIR` error,
modelled as `none`, exactly like a missing file: the server folds every
stat error into the same branch). -/
def statFile (fs : Fs) (p : Path) : Option FsNode :=
  if p.getLast? = some '/' ∧ p ≠ ['/'] then
    match fs p.dropLast with
    | some FsNode.dir => some FsNode.dir
    | _ => none
  else fs p

/-- `fs.readFile`: returns the content bytes of a regular file, `none` for
a directory (`EISDIR`) or a missing path. -/
def readFileFs (fs : Fs) (p : Path) : Option (List Nat) :=
  match statFile fs p with
  | some (FsNode.file _ c) => some c
  | _ => none

def indexHtml : List Char := "index.html".data

/-- `findFile` (src/index.js lines 42-64): stat the candidate; a directory
falls back to `<candidate>/index.html` when that is a regular file; any
stat error yields `null` (here `none`). Also returns the list of paths
statted, in order. -/
def findFile (fs : Fs) (file : Path) : Option (Path × Nat) × List Path :=
  match statFile fs file with
  | some FsNode.dir =>
    let indexFile := pathJoin file indexHtml
    (match statFile fs indexFile with
     | some (FsNode.file m _) => some (indexFile, m)
     | _ => none,
     [file, indexFile])
  | some (FsNode.file m _) => (some (file, m), [file])
  | none => (none, [file])

/-! ### Type registry (`getFileType`, src/index.js lines 66-72) -/

/-- Node's `path.extname`: the substring of the basename (trailing
separators stripped, portion after the last `/`) from its last `.`; empty
when there is no dot, the dot is the basename's first character, or the
basename is `..`. -/
def extname (p : Path) : List Char :=
  let stripped := (p.reverse.dropWhile (fun c => c = '/')).reverse
  let base := (splitSegs stripped).getLastD []
  let rev := base.reverse
  let afterDot := rev.takeWhile (fun c => c ≠ '.')
  let rest := rev.dropWhile (fun c => c ≠ '.')
  match rest with
  | [] => []
  | _ :: before =>
    if before = [] then []
    else if afterDot = [] ∧ before = ['.'] then []
    else '.' :: afterDot.reverse

structure EncodingSpec where
  name : List Char
  extension : List Char
  deriving DecidableEq, Repr

structure FileType where
  type : List Char
  encodings : List EncodingSpec
  deriving DecidableEq, Repr

/-- Exact key lookup in a configuration table (`hasOwnProperty` plus
indexing on a plain JS object). -/
def lookupTable {β : Type} : List (List Char × β) → List Char → Option β
  | [], _ => none
  | (k, v) :: rest, key => if key = k then some v else lookupTable rest key

/-! ### Encoding negotiation (`chooseEncoding`, src/index.js lines 74-100) -/

/-- Is a stat result a regular file (`stat.isFile()`)? -/
def FsNode.isRegular : Option FsNode → Bool
  | some (FsNode.file _ _) => true
  | _ => false

/-- Walk the file type's encodings in configured order; skip an encoding the
client did not declare; stat `<filePath>.<extension>` and take the first
variant that exists as a regular file (a stat error or a non-file falls
through to the next encoding). Also returns the statted paths. -/
def chooseEncoding (fs : Fs) (accepted : List (List Char)) (filePath : Path) :
    List EncodingSpec → Option (List Char × Path) × List Path
  | [] => (none, [])
  | e :: rest =>
    if e.name ∈ accepted then
      let encPath := filePath ++ '.' :: e.extension
      if FsNode.isRegular (statFile fs encPath) then (some (e.name, encPath), [encPath])
      else
        ((chooseEncoding fs accepted filePath rest).1,
         encPath :: (chooseEncoding fs accepted filePath rest).2)
    else chooseEncoding fs accepted filePath rest

/-! ### Logical path mapper (host middleware, src/index.js lines 102-137) -/

/-- A branch segment character: `[\w\d_-]`, i.e. ASCII alphanumeric,
underscore or hyphen. -/
def branchChar (c : Char) : Bool := c.isAlphanum || c == '_' || c == '-'

/-- Match `/^\/([\w\d_-]+)\//` and split the path into the branch prefix
`/<seg>` and the remaining path (which keeps its leading `/`). The capture
is greedy and `/` is not a branch character, so the captured segment is
exactly the maximal run of branch characters, which must be followed by a
`/`. -/
def branchSplit (p : Path) : Option (Path × Path) :=
  match p with
  | [] => none
  | c :: rest =>
    if c = '/' then
      if rest.takeWhile branchChar = [] then none
      else if (rest.dropWhile branchChar).head? = some '/' then
        some ('/' :: rest.takeWhile branchChar, rest.dropWhile branchChar)
      else none
    else none

/-- The regex `/^\/(?:\d+\/?)?$/`: `/`, or `/` plus a nonempty digit run
with an optional trailing `/`. -/
def matchIndexAlias (p : Path) : Bool :=
  match p with
  | [] => false
  | c :: rest =>
    decide (c = '/' ∧ (rest = [] ∨
      (rest.takeWhile Char.isDigit ≠ [] ∧
       (rest.dropWhile Char.isDigit = [] ∨ rest.dropWhile Char.isDigit = ['/']))))

/-- Case-insensitive match of `q` against `word` with an optional trailing
slash (the `word\/?$` tail of the alias regexes under the `i` flag; only `/`
itself matches the literal `/` case-insensitively). -/
def ciMatch (q word : List Char) : Bool :=
  decide (q.map Char.toLower = word ∨
    (q.getLast? = some '/' ∧ q.dropLast.map Char.toLower = word))

/-- The regexes `/^\/(?:\d+\/)?editor\/?$/i` and
`/^\/(?:\d+\/)?fullscreen\/?$/i`: an optional digit segment (terminated by a
mandatory `/`) followed by the word, optional trailing slash,
case-insensitive. When the path starts with digits the digit-segment
alternative is the only one that can apply, because the words start with a
letter. -/
def matchWordAlias (word : List Char) (p : Path) : Bool :=
  match p with
  | [] => false
  | c :: rest =>
    if c = '/' then
      if rest.takeWhile Char.isDigit = [] then ciMatch rest word
      else if (rest.dropWhile Char.isDigit).head? = some '/' then
        ciMatch (rest.dropWhile Char.isDigit).tail word
      else false
    else false

def eWord : List Char := "editor".data
def fWord : List Char := "fullscreen".data

/-- The alias rules of the host middleware: strip a branch prefix when
branches are enabled, then try index, editor, fullscreen in that fixed
order; `none` when no alias rule fires (so the raw path is used). -/
def logicalPathFor (branches : Bool) (reqPath : Path) : Option Path :=
  let pr := if branches then (branchSplit reqPath).getD ([], reqPath) else ([], reqPath)
  if matchIndexAlias pr.2 then some (pr.1 ++ "/index.html".data)
  else if matchWordAlias eWord pr.2 then some (pr.1 ++ "/editor.html".data)
  else if matchWordAlias fWord pr.2 then some (pr.1 ++ "/fullscreen.html".data)
  else none

/-- `req.logicalPath || req.path` (src/index.js line 156). -/
def pathNameOf (branches : Bool) (reqPath : Path) : Path :=
  (logicalPathFor branches reqPath).getD reqPath

/-! ### Character filter (src/index.js line 158) -/

/-- A character accepted by the pre-join filter: the complement of the
regex `[^a-zA-Z0-9.\-\/~]` (note: no underscore in the class). -/
def allowedChar (c : Char) : Bool :=
  c.isAlpha || c.isDigit || c == '.' || c == '-' || c == '/' || c == '~'

/-- `/[^a-zA-Z0-9.\-\/~]/.test(pathName)`. -/
def hasBadChar (p : Path) : Bool := p.any (fun c => !allowedChar c)

/-! ### Response composition and the full pipeline -/

structure ServedResponse where
  contentType : List Char
  lastModified : Nat
  contentEncoding : Option (List Char)
  vary : Bool
  cacheControl : List Char
  body : List Nat
  deriving DecidableEq, Repr

/-- The observable outcome of a GET request: a successful file response, or
a plain-text response with a status code (400 invalid host, 404 terminal
middleware, 500 error middleware). -/
inductive Outcome where
  | served (resp : ServedResponse)
  | plain (status : Nat) (contentType : List Char) (body : List Char)
  deriving DecidableEq, Repr

def textPlain : List Char := "text/plain".data

/-- Terminal middleware (src/index.js lines 226-230). -/
def notFoundResponse : Outcome := Outcome.plain 404 textPlain ("404 Not Found".data)

/-- Unknown-host branch of the host middleware (src/index.js lines 104-109). -/
def invalidHostResponse : Outcome := Outcome.plain 400 textPlain ("Invalid Host".data)

/-- Error middleware (src/index.js lines 232-240). -/
def internalErrorResponse : Outcome :=
  Outcome.plain 500 textPlain ("Internal server error".data)

/-- Express route matching is case-insensitive (`case sensitive routing`
is false): does `p` start with `pat` up to ASCII case? -/
def startsWithCI (pat p : Path) : Bool :=
  decide ((p.take pat.length).map Char.toLower = pat)

/-- The three path-prefix Cache-Control middlewares
(src/index.js lines 139-153), in registration order. -/
def presetCacheControl (p : Path) : Option (List Char) :=
  if startsWithCI ("/js/".data) p then
    some ("public, max-age=315360000, immutable".data)
  else if startsWithCI ("/static/assets/".data) p then
    some ("public, max-age=315360000, immutable".data)
  else if startsWithCI ("/static/blocks-media/".data) p then
    some ("public, max-age=3600, immutable".data)
  else none

structure HostCfg where
  root : Path
  branches : Bool
  deriving DecidableEq, Repr

structure Request where
  hostname : List Char
  reqPath : Path
  acceptedEncodings : List (List Char)
  deriving DecidableEq, Repr

/-- The path whose bytes are served: the chosen encoded variant's path when
negotiation succeeded, otherwise the resolved base path
(src/index.js lines 188-189). -/
def pickPath (best : Option (List Char × Path)) (base : Path) : Path :=
  match best with
  | some x => x.2
  | none => base

/-- The full GET pipeline of src/index.js: host lookup (400 on unknown
host), logical path mapping, character filter, safe join, file resolution,
type lookup, encoding negotiation, read, and response composition. Returns
the outcome and the list of paths handed to the filesystem layer. When
`findFile` yields `null`, line 169 destructures `null`
(`let {path: filePath, stat: fileStat} = await findFile(...)`), which
throws a `TypeError`; `express-async-handler` forwards it to the error
middleware, so the outcome is the 500 response, not the 404 one. -/
def handleRequest (hosts : List (List Char × HostCfg))
    (types : List (List Char × FileType)) (fs : Fs) (req : Request) :
    Outcome × List Path :=
  match lookupTable hosts req.hostname with
  | none => (invalidHostResponse, [])
  | some host =>
    let root := normRoot host.root
    let pathName := pathNameOf host.branches req.reqPath
    if hasBadChar pathName then (notFoundResponse, [])
    else
      match safeJoin root pathName with
      | none => (notFoundResponse, [])
      | some requestPathName =>
        let ff := findFile fs requestPathName
        match ff.1 with
        | none => (internalErrorResponse, ff.2)
        | some (filePath0, mtime0) =>
          match lookupTable types (extname filePath0) with
          | none => (notFoundResponse, ff.2)
          | some ftype =>
            let encPair :=
              if ftype.encodings.isEmpty then (none, [])
              else chooseEncoding fs req.acceptedEncodings filePath0 ftype.encodings
            let filePath := pickPath encPair.1 filePath0
            match readFileFs fs filePath with
            | none => (notFoundResponse, ff.2 ++ encPair.2 ++ [filePath])
            | some contents =>
              (Outcome.served {
                 contentType := ftype.type
                 lastModified := mtime0
                 contentEncoding := Option.map Prod.fst encPair.1
                 vary := !ftype.encodings.isEmpty
                 cacheControl := (presetCacheControl req.reqPath).getD ("no-cache".data)
                 body := contents },
               ff.2 ++ encPair.2 ++ [filePath])

/-! ### Demo configuration used by concrete witnesses -/

def demoHosts : List (List Char × HostCfg) :=
  [("example.com".data, ⟨"/var/www".data, false⟩),
   ("branchy.example.com".data, ⟨"/var/branchy".data, true⟩)]

def demoTypes : List (List Char × FileType) :=
  [(".html".data, ⟨"text/html".data, []⟩),
   (".png".data, ⟨"image/png".data, []⟩),
   (".js".data, ⟨"text/javascript".data,
     [⟨"gzip".data, "gz".data⟩, ⟨"br".data, "br".data⟩]⟩)]

def emptyFs : Fs := fun _ => none

def blogFs : Fs := fun p =>
  if p = "/var/www/blog".data then some FsNode.dir
  else if p = "/var/www/blog/index.html".data then some (FsNode.file 7 [104, 105])
  else none

def dirOnlyFs : Fs := fun p =>
  if p = "/var/www/blog".data then some FsNode.dir else none

def gzFs : Fs := fun p =>
  if p = "/var/www/a.js".data then some (FsNode.file 3 [1, 2])
  else if p = "/var/www/a.js.gz".data then some (FsNode.file 9 [33])
  else none

/-! ### Declarative shapes used to characterize the matchers -/

/-- An encoding variant that negotiation may select: declared by the client
and present on disk as a regular file at `<base>.<extension>`. -/
def variantOk (fs : Fs) (accepted : List (List Char)) (base : Path)
    (e : EncodingSpec) : Bool :=
  decide (e.name ∈ accepted) && FsNode.isRegular (statFile fs (base ++ '.' :: e.extension))

/-- Declarative form of the index alias: `/`, or `/` plus a nonempty digit
segment with an optional trailing slash. -/
def IndexShape (p : Path) : Prop :=
  p = ['/'] ∨ ∃ ds : List Char, ds ≠ [] ∧ (∀ c ∈ ds, c.isDigit = true) ∧
    (p = '/' :: ds ∨ p = '/' :: (ds ++ ['/']))

/-- Declarative form of the editor/fullscreen aliases: `/<word>` or
`/<digits>/<word>`, case-insensitive in the word, optional trailing
slash. -/
def WordShape (word : List Char) (p : Path) : Prop :=
  (∃ w, w.map Char.toLower = word ∧ (p = '/' :: w ∨ p = '/' :: (w ++ ['/']))) ∨
  (∃ ds w, ds ≠ [] ∧ (∀ c ∈ ds, c.isDigit = true) ∧ w.map Char.toLower = word ∧
    (p = '/' :: (ds ++ '/' :: w) ∨ p = '/' :: (ds ++ '/' :: (w ++ ['/']))))

/-- Declarative form of the branch-prefix split: a leading `/<seg>/` with a
nonempty run of branch characters, prefix `/<seg>`, remainder keeping the
second slash. -/
def BranchShape (p pfx rem : Path) : Prop :=
  ∃ seg rest, seg ≠ [] ∧ (∀ c ∈ seg, branchChar c = true) ∧
    p = '/' :: (seg ++ '/' :: rest) ∧ pfx = '/' :: seg ∧ rem = '/' :: rest

/-- A clean segment: nonempty and not a dot segment (exactly the segments
`resolveCore` pushes). -/
def CleanSeg (s : List Char) : Prop := ¬(s = [] ∨ s = ['.']) ∧ s ≠ ['.', '.']

instance (s : List Char) : Decidable (CleanSeg s) := by
  unfold CleanSeg
  infer_instance

/-! ### Helper lemmas: path splitting and normalization structure -/

theorem splitSegs_ne_nil (p : Path) : splitSegs p ≠ [] := by
  induction p with
  | nil => simp [splitSegs]
  | cons c rest ih =>
    simp only [splitSegs]
    split
    · simp
    · match h : splitSegs rest with
      | [] => simp
      | s :: ss => simp

theorem splitSegs_append (a b : Path) :
    splitSegs (a ++ '/' :: b) = splitSegs a ++ splitSegs b := by
  induction a with
  | nil =>
    show splitSegs ('/' :: b) = splitSegs [] ++ splitSegs b
    simp [splitSegs]
  | cons c rest ih =>
    show splitSegs (c :: (rest ++ '/' :: b)) = _
    simp only [splitSegs, List.append_eq]
    split
    · rw [ih]
      rfl
    · rw [ih]
      match hsp : splitSegs rest, splitSegs_ne_nil rest with
      | s0 :: ss, _ => simp

theorem mem_splitSegs_no_slash (p : Path) (s : List Char) (hs : s ∈ splitSegs p) :
    '/' ∉ s := by
  induction p generalizing s with
  | nil =>
    simp only [splitSegs, List.mem_singleton] at hs
    subst hs
    simp
  | cons c rest ih =>
    simp only [splitSegs] at hs
    split at hs
    · rcases List.mem_cons.mp hs with h | h
      · subst h
        simp
      · exact ih s h
    · rename_i hc
      match hsp : splitSegs rest, splitSegs_ne_nil rest with
      | s0 :: ss, _ =>
        rw [hsp] at hs
        rcases List.mem_cons.mp hs with h | h
        · subst h
          intro hm
          rcases List.mem_cons.mp hm with h2 | h2
          · exact hc h2.symm
          · exact ih s0 (by rw [hsp]; exact List.mem_cons_self s0 ss) h2
        · exact ih s (by rw [hsp]; exact List.mem_cons_of_mem s0 h)

theorem splitSegs_no_slash (s : List Char) (h : '/' ∉ s) : splitSegs s = [s] := by
  induction s with
  | nil => simp [splitSegs]
  | cons c rest ih =>
    simp only [splitSegs]
    have hc : ¬(c = '/') := fun hc => h (hc ▸ List.mem_cons_self c rest)
    rw [if_neg hc, ih (fun hm => h (List.mem_cons_of_mem c hm))]

theorem joinSegs_append_single (l : List (List Char)) (s : List Char) (hl : l ≠ []) :
    joinSegs (l ++ [s]) = joinSegs l ++ '/' :: s := by
  induction l with
  | nil => exact absurd rfl hl
  | cons a l ih =>
    match l with
    | [] => simp [joinSegs]
    | b :: l2 =>
      have h2 := ih (by simp)
      have h3 : joinSegs (a :: ((b :: l2) ++ [s])) = a ++ '/' :: joinSegs ((b :: l2) ++ [s]) := by
        show joinSegs (a :: b :: (l2 ++ [s])) = _
        rfl
      show joinSegs (a :: ((b :: l2) ++ [s])) = (a ++ '/' :: joinSegs (b :: l2)) ++ '/' :: s
      rw [h3, h2]
      simp

theorem splitSegs_joinSegs (l : List (List Char)) (hl : l ≠ [])
    (hns : ∀ s ∈ l, '/' ∉ s) : splitSegs (joinSegs l) = l := by
  induction l with
  | nil => exact absurd rfl hl
  | cons a l ih =>
    match l with
    | [] => simp [joinSegs, splitSegs_no_slash a (hns a (by simp))]
    | b :: l2 =>
      show splitSegs (a ++ '/' :: joinSegs (b :: l2)) = a :: b :: l2
      rw [splitSegs_append, splitSegs_no_slash a (hns a (by simp))]
      rw [ih (by simp) (fun s hs => hns s (List.mem_cons_of_mem a hs))]
      rfl

theorem resolveCore_skip (acc : List (List Char)) (s : List Char)
    (h : s = [] ∨ s = ['.']) (rest : List (List Char)) :
    resolveCore acc (s :: rest) = resolveCore acc rest := by
  simp only [resolveCore]
  rw [if_pos h]

theorem resolveCore_pop (acc : List (List Char)) (s : List Char)
    (h1 : ¬(s = [] ∨ s = ['.'])) (h2 : s = ['.', '.']) (rest : List (List Char)) :
    resolveCore acc (s :: rest) = resolveCore acc.tail rest := by
  simp only [resolveCore]
  rw [if_neg h1, if_pos h2]

theorem resolveCore_push (acc : List (List Char)) (s : List Char)
    (hs : CleanSeg s) (rest : List (List Char)) :
    resolveCore acc (s :: rest) = resolveCore (s :: acc) rest := by
  simp only [resolveCore]
  rw [if_neg hs.1, if_neg hs.2]

theorem resolveCore_append (xs ys acc : List (List Char)) :
    resolveCore acc (xs ++ ys) = resolveCore (resolveCore acc xs) ys := by
  induction xs generalizing acc with
  | nil => rfl
  | cons s xs ih =>
    rw [List.cons_append]
    by_cases h1 : s = [] ∨ s = ['.']
    · rw [resolveCore_skip acc s h1 (xs ++ ys), resolveCore_skip acc s h1 xs, ih]
    · by_cases h2 : s = ['.', '.']
      · rw [resolveCore_pop acc s h1 h2 (xs ++ ys), resolveCore_pop acc s h1 h2 xs, ih]
      · rw [resolveCore_push acc s ⟨h1, h2⟩ (xs ++ ys), resolveCore_push acc s ⟨h1, h2⟩ xs, ih]

theorem resolveCore_clean (xs acc : List (List Char)) (h : ∀ s ∈ xs, CleanSeg s) :
    resolveCore acc xs = xs.reverse ++ acc := by
  induction xs generalizing acc with
  | nil => simp [resolveCore]
  | cons s xs ih =>
    rw [resolveCore_push acc s (h s (by simp)) xs]
    rw [ih (s :: acc) (fun t ht => h t (List.mem_cons_of_mem s ht))]
    simp

theorem mem_resolveCore (P : List Char → Prop) (xs acc : List (List Char))
    (hxs : ∀ s ∈ xs, P s) (hacc : ∀ s ∈ acc, P s) :
    ∀ s ∈ resolveCore acc xs, P s ∧ (s ∈ acc ∨ CleanSeg s) := by
  induction xs generalizing acc with
  | nil =>
    intro s hs
    exact ⟨hacc s hs, Or.inl hs⟩
  | cons t xs ih =>
    intro s hs
    by_cases h1 : t = [] ∨ t = ['.']
    · rw [resolveCore_skip acc t h1 xs] at hs
      exact ih acc (fun u hu => hxs u (List.mem_cons_of_mem t hu)) hacc s hs
    · by_cases h2 : t = ['.', '.']
      · rw [resolveCore_pop acc t h1 h2 xs] at hs
        have := ih acc.tail (fun u hu => hxs u (List.mem_cons_of_mem t hu))
          (fun u hu => hacc u (List.mem_of_mem_tail hu)) s hs
        rcases this with ⟨hp, hm | hm⟩
        · exact ⟨hp, Or.inl (List.mem_of_mem_tail hm)⟩
        · exact ⟨hp, Or.inr hm⟩
      · rw [resolveCore_push acc t ⟨h1, h2⟩ xs] at hs
        have := ih (t :: acc)
          (fun u hu => hxs u (List.mem_cons_of_mem t hu))
          (fun u hu => by
            rcases List.mem_cons.mp hu with h3 | h3
            · exact h3 ▸ hxs t (List.mem_cons_self t xs)
            · exact hacc u h3) s hs
        rcases this with ⟨hp, hm | hm⟩
        · rcases List.mem_cons.mp hm with h3 | h3
          · refine ⟨hp, Or.inr ?_⟩
            rw [h3]
            exact ⟨h1, h2⟩
          · exact ⟨hp, Or.inl h3⟩
        · exact ⟨hp, Or.inr hm⟩

/-- The segments of a normalized path are clean and slash-free. -/
theorem normalizeAbs_segs_ok (p : Path) :
    ∀ s ∈ (resolveCore [] (splitSegs p)).reverse, CleanSeg s ∧ '/' ∉ s := by
  intro s hs
  rw [List.mem_reverse] at hs
  have := mem_resolveCore (fun t => '/' ∉ t) (splitSegs p) []
    (fun t ht => mem_splitSegs_no_slash p t ht) (by simp) s hs
  rcases this with ⟨h1, h2 | h2⟩
  · simp at h2
  · exact ⟨h2, h1⟩

theorem getLast?_append_of_ne_nil {α : Type} (a : List α) {b : List α} (hb : b ≠ []) :
    (a ++ b).getLast? = b.getLast? := by
  match b, hb with
  | y :: bs, _ =>
    induction a with
    | nil => rfl
    | cons x a ih =>
      rw [List.cons_append, List.getLast?_cons, ih, List.getLast?_cons]
      simp

/-- Key containment lemma: appending one clean, slash-free segment to an
already-normalized path with `path.join` only extends the path; the
normalization cannot rewrite the normalized part. -/
theorem pathJoin_normalized_extends (p : Path) (s : List Char)
    (hs : CleanSeg s) (hns : '/' ∉ s) :
    ∃ t, pathJoin (normalizeAbs p) s = normalizeAbs p ++ t := by
  have hsn : s ≠ [] := fun h => hs.1 (Or.inl h)
  have hlastS : ∀ a : Path, endsWithSlash (a ++ s) = false := by
    intro a
    simp only [endsWithSlash, beq_eq_false_iff_ne, ne_eq]
    rw [getLast?_append_of_ne_nil a hsn]
    intro h
    exact hns (List.mem_of_mem_getLast? (show '/' ∈ s.getLast? from by rw [h]; rfl))
  set segs := (resolveCore [] (splitSegs p)).reverse with hsegs
  have hclean : ∀ u ∈ segs, CleanSeg u ∧ '/' ∉ u := normalizeAbs_segs_ok p
  have hnorm : normalizeAbs p = normAssemble (endsWithSlash p) segs := rfl
  by_cases h0 : segs = []
  · -- normalizeAbs p = "/"
    have hn : normalizeAbs p = ['/'] := by
      rw [hnorm, h0]
      rfl
    rw [hn]
    refine ⟨s, ?_⟩
    show normalizeAbs (['/'] ++ '/' :: s) = ['/'] ++ s
    have harr : (['/'] : Path) ++ '/' :: s = ['/', '/'] ++ s := rfl
    have hsplit : splitSegs (['/'] ++ '/' :: s) = [[], [], s] := by
      rw [splitSegs_append]
      show [[]] ++ splitSegs ([] ++ '/' :: s) = _
      rw [splitSegs_append, splitSegs_no_slash s hns]
      rfl
    have hres : resolveCore [] [[], [], s] = [s] := by
      rw [resolveCore_skip _ _ (Or.inl rfl), resolveCore_skip _ _ (Or.inl rfl),
        resolveCore_push _ _ hs]
      rfl
    unfold normalizeAbs
    rw [hsplit, hres, harr, hlastS]
    rfl
  · have hnosl : ∀ u ∈ segs, '/' ∉ u := fun u hu => (hclean u hu).2
    have hcl : ∀ u ∈ segs, CleanSeg u := fun u hu => (hclean u hu).1
    have hsplitn : splitSegs ('/' :: joinSegs segs) = [] :: segs := by
      show splitSegs ([] ++ '/' :: joinSegs segs) = _
      rw [splitSegs_append, splitSegs_joinSegs segs h0 hnosl]
      rfl
    have hressegs : resolveCore [] ([] :: segs) = segs.reverse := by
      rw [resolveCore_skip _ _ (Or.inl rfl), resolveCore_clean segs [] hcl]
      simp
    have hjoin : joinSegs (segs ++ [s]) = joinSegs segs ++ '/' :: s :=
      joinSegs_append_single segs s h0
    have hrev : (s :: segs.reverse).reverse = segs ++ [s] := by simp
    by_cases ht : endsWithSlash p = true
    · -- normalizeAbs p = ('/' :: joinSegs segs) ++ ['/']
      have hn : normalizeAbs p = ('/' :: joinSegs segs) ++ ['/'] := by
        rw [hnorm, ht]
        unfold normAssemble
        rw [if_neg h0]
        rfl
      rw [hn]
      refine ⟨s, ?_⟩
      have harr : ((('/' :: joinSegs segs) ++ ['/']) ++ '/' :: s) =
          (('/' :: joinSegs segs) ++ '/' :: ('/' :: s)) := by simp
      show normalizeAbs ((('/' :: joinSegs segs) ++ ['/']) ++ '/' :: s) = _
      rw [harr]
      have hsplit2 : splitSegs (('/' :: joinSegs segs) ++ '/' :: ('/' :: s)) =
          ([] :: segs) ++ [[], s] := by
        rw [splitSegs_append, hsplitn]
        show _ = ([] :: segs) ++ ([[]] ++ [s])
        rw [show ('/' :: s : Path) = [] ++ '/' :: s from rfl, splitSegs_append,
          splitSegs_no_slash s hns]
        rfl
      have hres2 : resolveCore [] (([] :: segs) ++ [[], s]) = s :: segs.reverse := by
        rw [resolveCore_append, hressegs, resolveCore_skip _ _ (Or.inl rfl),
          resolveCore_push _ _ hs]
        rfl
      have hew : endsWithSlash (('/' :: joinSegs segs) ++ '/' :: ('/' :: s)) = false := by
        have : (('/' :: joinSegs segs) ++ '/' :: ('/' :: s)) =
            (('/' :: joinSegs segs) ++ ['/', '/']) ++ s := by simp
        rw [this]
        exact hlastS _
      unfold normalizeAbs
      rw [hsplit2, hres2, hew, hrev]
      unfold normAssemble
      rw [if_neg (by simp : ¬(segs ++ [s] = []))]
      show '/' :: joinSegs (segs ++ [s]) = _
      rw [hjoin]
      simp
    · -- normalizeAbs p = '/' :: joinSegs segs
      have ht2 : endsWithSlash p = false := by
        revert ht
        cases endsWithSlash p <;> simp
      have hn : normalizeAbs p = '/' :: joinSegs segs := by
        rw [hnorm, ht2]
        unfold normAssemble
        rw [if_neg h0]
        simp
      rw [hn]
      refine ⟨'/' :: s, ?_⟩
      show normalizeAbs (('/' :: joinSegs segs) ++ '/' :: s) = ('/' :: joinSegs segs) ++ '/' :: s
      have hsplit2 : splitSegs (('/' :: joinSegs segs) ++ '/' :: s) =
          ([] :: segs) ++ [s] := by
        rw [splitSegs_append, hsplitn, splitSegs_no_slash s hns]
      have hres2 : resolveCore [] (([] :: segs) ++ [s]) = s :: segs.reverse := by
        rw [resolveCore_append, hressegs, resolveCore_push _ _ hs]
        rfl
      have hew : endsWithSlash (('/' :: joinSegs segs) ++ '/' :: s) = false := by
        have : (('/' :: joinSegs segs) ++ '/' :: s) =
            (('/' :: joinSegs segs) ++ ['/']) ++ s := by simp
        rw [this]
        exact hlastS _
      unfold normalizeAbs
      rw [hsplit2, hres2, hew, hrev]
      unfold normAssemble
      rw [if_neg (by simp : ¬(segs ++ [s] = []))]
      show '/' :: joinSegs (segs ++ [s]) = _
      rw [hjoin]
      simp

/-! ### Helper lemmas: encoding negotiation -/

theorem chooseEncoding_eq_find (fs : Fs) (acc : List (List Char)) (base : Path)
    (encs : List EncodingSpec) :
    (chooseEncoding fs acc base encs).1 =
      (encs.find? (variantOk fs acc base)).map
        (fun e => (e.name, base ++ '.' :: e.extension)) := by
  induction encs with
  | nil => rfl
  | cons e rest ih =>
    by_cases hm : e.name ∈ acc
    · by_cases hf : FsNode.isRegular (statFile fs (base ++ '.' :: e.extension)) = true
      · have hv : variantOk fs acc base e = true := by
          unfold variantOk
          rw [hf]
          simp [hm]
        rw [List.find?_cons_of_pos _ hv]
        simp only [chooseEncoding, if_pos hm, if_pos hf]
        rfl
      · have hv : ¬(variantOk fs acc base e = true) := by
          unfold variantOk
          intro hx
          exact hf (Bool.and_elim_right hx)
        rw [List.find?_cons_of_neg _ hv]
        simp only [chooseEncoding, if_pos hm, if_neg hf]
        exact ih
    · have hv : ¬(variantOk fs acc base e = true) := by
        unfold variantOk
        intro hx
        exact hm (by simpa using Bool.and_elim_left hx)
      rw [List.find?_cons_of_neg _ hv]
      simp only [chooseEncoding, if_neg hm]
      exact ih

theorem chooseEncoding_acc_congr (fs : Fs) (acc acc2 : List (List Char))
    (base : Path) (encs : List EncodingSpec)
    (h : ∀ nm, nm ∈ acc ↔ nm ∈ acc2) :
    (chooseEncoding fs acc base encs).1 = (chooseEncoding fs acc2 base encs).1 := by
  induction encs with
  | nil => rfl
  | cons e rest ih =>
    by_cases hm : e.name ∈ acc
    · have hm2 : e.name ∈ acc2 := (h e.name).mp hm
      by_cases hf : FsNode.isRegular (statFile fs (base ++ '.' :: e.extension)) = true
      · simp only [chooseEncoding, if_pos hm, if_pos hm2, if_pos hf]
      · simp only [chooseEncoding, if_pos hm, if_pos hm2, if_neg hf]
        exact ih
    · have hm2 : ¬(e.name ∈ acc2) := fun hx => hm ((h e.name).mpr hx)
      simp only [chooseEncoding, if_neg hm, if_neg hm2]
      exact ih

theorem chooseEncoding_log_shape (fs : Fs) (acc : List (List Char)) (base : Path)
    (encs : List EncodingSpec) :
    ∀ q ∈ (chooseEncoding fs acc base encs).2,
      ∃ e ∈ encs, q = base ++ '.' :: e.extension := by
  induction encs with
  | nil => simp [chooseEncoding]
  | cons e rest ih =>
    intro q hq
    by_cases hm : e.name ∈ acc
    · by_cases hf : FsNode.isRegular (statFile fs (base ++ '.' :: e.extension)) = true
      · simp only [chooseEncoding, if_pos hm, if_pos hf, List.mem_singleton] at hq
        exact ⟨e, by simp, hq⟩
      · simp only [chooseEncoding, if_pos hm, if_neg hf] at hq
        rcases List.mem_cons.mp hq with h | h
        · exact ⟨e, by simp, h⟩
        · obtain ⟨e2, he2, hq2⟩ := ih q h
          exact ⟨e2, List.mem_cons_of_mem e he2, hq2⟩
    · simp only [chooseEncoding, if_neg hm] at hq
      obtain ⟨e2, he2, hq2⟩ := ih q hq
      exact ⟨e2, List.mem_cons_of_mem e he2, hq2⟩

theorem chooseEncoding_some_shape (fs : Fs) (acc : List (List Char)) (base : Path)
    (encs : List EncodingSpec) (n : List Char) (p : Path)
    (h : (chooseEncoding fs acc base encs).1 = some (n, p)) :
    ∃ e ∈ encs, n = e.name ∧ p = base ++ '.' :: e.extension := by
  rw [chooseEncoding_eq_find] at h
  match hfind : encs.find? (variantOk fs acc base) with
  | none =>
    rw [hfind] at h
    simp at h
  | some e =>
    rw [hfind] at h
    simp only [Option.map_some', Option.some.injEq, Prod.mk.injEq] at h
    exact ⟨e, List.mem_of_find?_eq_some hfind, h.1.symm, h.2.symm⟩

/-! ### Helper lemmas: file resolution -/

theorem findFile_dir_index (fs : Fs) (cand : Path) (m : Nat) (c : List Nat)
    (hdir : statFile fs cand = some FsNode.dir)
    (hidx : statFile fs (pathJoin cand indexHtml) = some (FsNode.file m c)) :
    findFile fs cand = (some (pathJoin cand indexHtml, m), [cand, pathJoin cand indexHtml]) := by
  simp only [findFile, hdir, hidx]

theorem findFile_dir_noindex (fs : Fs) (cand : Path)
    (hdir : statFile fs cand = some FsNode.dir)
    (hno : ∀ m c, statFile fs (pathJoin cand indexHtml) ≠ some (FsNode.file m c)) :
    (findFile fs cand).1 = none := by
  match hstat2 : statFile fs (pathJoin cand indexHtml) with
  | none => simp only [findFile, hdir, hstat2]
  | some FsNode.dir => simp only [findFile, hdir, hstat2]
  | some (FsNode.file m c) => exact absurd hstat2 (hno m c)

theorem findFile_cases (fs : Fs) (cand p0 : Path) (m0 : Nat)
    (h : (findFile fs cand).1 = some (p0, m0)) :
    p0 = cand ∨ p0 = pathJoin cand indexHtml := by
  match hstat : statFile fs cand with
  | none =>
    simp [findFile, hstat] at h
  | some (FsNode.file m c) =>
    simp only [findFile, hstat, Option.some.injEq, Prod.mk.injEq] at h
    exact Or.inl h.1.symm
  | some FsNode.dir =>
    match hstat2 : statFile fs (pathJoin cand indexHtml) with
    | some (FsNode.file m c) =>
      simp only [findFile, hstat, hstat2, Option.some.injEq, Prod.mk.injEq] at h
      exact Or.inr h.1.symm
    | some FsNode.dir =>
      simp [findFile, hstat, hstat2] at h
    | none =>
      simp [findFile, hstat, hstat2] at h

theorem findFile_log (fs : Fs) (cand : Path) :
    (findFile fs cand).2 = [cand] ∨
      (findFile fs cand).2 = [cand, pathJoin cand indexHtml] := by
  match hstat : statFile fs cand with
  | none => simp [findFile, hstat]
  | some (FsNode.file m c) => simp [findFile, hstat]
  | some FsNode.dir => simp [findFile, hstat]

/-! ### Helper lemmas: safe join -/

theorem safeJoin_eq_some (root file q : Path) (h : safeJoin root file = some q) :
    q = pathJoin root file ∧ root <+: q := by
  have he : safeJoin root file =
      (if root <+: pathJoin root file then some (pathJoin root file) else none) := rfl
  rw [he] at h
  by_cases hpre : root <+: pathJoin root file
  · rw [if_pos hpre] at h
    cases h
    exact ⟨rfl, hpre⟩
  · rw [if_neg hpre] at h
    cases h

/-! ### Helper lemmas: unfolding the pipeline stage by stage -/

theorem encPair_eq (fs : Fs) (acc : List (List Char)) (base : Path)
    (encs : List EncodingSpec) :
    (if encs.isEmpty then ((none : Option (List Char × Path)), ([] : List Path))
     else chooseEncoding fs acc base encs) = chooseEncoding fs acc base encs := by
  match encs with
  | [] => rfl
  | e :: rest => rfl

theorem handleRequest_unknown (hosts : List (List Char × HostCfg))
    (types : List (List Char × FileType)) (fs : Fs) (req : Request)
    (h1 : lookupTable hosts req.hostname = none) :
    handleRequest hosts types fs req = (invalidHostResponse, []) := by
  unfold handleRequest
  rw [h1]

theorem handleRequest_badchar (hosts : List (List Char × HostCfg))
    (types : List (List Char × FileType)) (fs : Fs) (req : Request) (host : HostCfg)
    (h1 : lookupTable hosts req.hostname = some host)
    (h2 : hasBadChar (pathNameOf host.branches req.reqPath) = true) :
    handleRequest hosts types fs req = (notFoundResponse, []) := by
  unfold handleRequest
  rw [h1]
  simp only [h2, if_true]

theorem handleRequest_nojoin (hosts : List (List Char × HostCfg))
    (types : List (List Char × FileType)) (fs : Fs) (req : Request) (host : HostCfg)
    (h1 : lookupTable hosts req.hostname = some host)
    (h2 : hasBadChar (pathNameOf host.branches req.reqPath) = false)
    (h3 : safeJoin (normRoot host.root) (pathNameOf host.branches req.reqPath) = none) :
    handleRequest hosts types fs req = (notFoundResponse, []) := by
  unfold handleRequest
  rw [h1]
  simp only [h2, Bool.false_eq_true, if_false, h3]

theorem handleRequest_nofind (hosts : List (List Char × HostCfg))
    (types : List (List Char × FileType)) (fs : Fs) (req : Request) (host : HostCfg)
    (cand : Path)
    (h1 : lookupTable hosts req.hostname = some host)
    (h2 : hasBadChar (pathNameOf host.branches req.reqPath) = false)
    (h3 : safeJoin (normRoot host.root) (pathNameOf host.branches req.reqPath) = some cand)
    (h4 : (findFile fs cand).1 = none) :
    handleRequest hosts types fs req = (internalErrorResponse, (findFile fs cand).2) := by
  unfold handleRequest
  rw [h1]
  simp only [h2, Bool.false_eq_true, if_false, h3, h4]

theorem handleRequest_notype (hosts : List (List Char × HostCfg))
    (types : List (List Char × FileType)) (fs : Fs) (req : Request) (host : HostCfg)
    (cand p0 : Path) (m0 : Nat)
    (h1 : lookupTable hosts req.hostname = some host)
    (h2 : hasBadChar (pathNameOf host.branches req.reqPath) = false)
    (h3 : safeJoin (normRoot host.root) (pathNameOf host.branches req.reqPath) = some cand)
    (h4 : (findFile fs cand).1 = some (p0, m0))
    (h5 : lookupTable types (extname p0) = none) :
    handleRequest hosts types fs req = (notFoundResponse, (findFile fs cand).2) := by
  unfold handleRequest
  rw [h1]
  simp only [h2, Bool.false_eq_true, if_false, h3, h4, h5]

theorem handleRequest_noread (hosts : List (List Char × HostCfg))
    (types : List (List Char × FileType)) (fs : Fs) (req : Request) (host : HostCfg)
    (cand p0 : Path) (m0 : Nat) (ftype : FileType)
    (h1 : lookupTable hosts req.hostname = some host)
    (h2 : hasBadChar (pathNameOf host.branches req.reqPath) = false)
    (h3 : safeJoin (normRoot host.root) (pathNameOf host.branches req.reqPath) = some cand)
    (h4 : (findFile fs cand).1 = some (p0, m0))
    (h5 : lookupTable types (extname p0) = some ftype)
    (h6 : readFileFs fs
      (pickPath (chooseEncoding fs req.acceptedEncodings p0 ftype.encodings).1 p0) = none) :
    handleRequest hosts types fs req =
      (notFoundResponse,
       (findFile fs cand).2 ++ (chooseEncoding fs req.acceptedEncodings p0 ftype.encodings).2 ++
         [pickPath (chooseEncoding fs req.acceptedEncodings p0 ftype.encodings).1 p0]) := by
  unfold handleRequest
  rw [h1]
  simp only [h2, Bool.false_eq_true, if_false, h3, h4, h5, encPair_eq, h6]

theorem handleRequest_served (hosts : List (List Char × HostCfg))
    (types : List (List Char × FileType)) (fs : Fs) (req : Request) (host : HostCfg)
    (cand p0 : Path) (m0 : Nat) (ftype : FileType) (c : List Nat)
    (h1 : lookupTable hosts req.hostname = some host)
    (h2 : hasBadChar (pathNameOf host.branches req.reqPath) = false)
    (h3 : safeJoin (normRoot host.root) (pathNameOf host.branches req.reqPath) = some cand)
    (h4 : (findFile fs cand).1 = some (p0, m0))
    (h5 : lookupTable types (extname p0) = some ftype)
    (h6 : readFileFs fs
      (pickPath (chooseEncoding fs req.acceptedEncodings p0 ftype.encodings).1 p0) = some c) :
    handleRequest hosts types fs req =
      (Outcome.served ⟨ftype.type, m0,
         Option.map Prod.fst (chooseEncoding fs req.acceptedEncodings p0 ftype.encodings).1,
         !ftype.encodings.isEmpty,
         (presetCacheControl req.reqPath).getD ("no-cache".data), c⟩,
       (findFile fs cand).2 ++ (chooseEncoding fs req.acceptedEncodings p0 ftype.encodings).2 ++
         [pickPath (chooseEncoding fs req.acceptedEncodings p0 ftype.encodings).1 p0]) := by
  unfold handleRequest
  rw [h1]
  simp only [h2, Bool.false_eq_true, if_false, h3, h4, h5, encPair_eq, h6]

/-! ### Helper lemmas: characters and takeWhile/dropWhile -/

theorem toLower_of_isDigit {c : Char} (h : c.isDigit = true) : c.toLower = c := by
  simp [Char.isDigit, decide_eq_true_iff] at h
  unfold Char.toLower
  have h2 : ¬(c.toNat ≥ 65 ∧ c.toNat ≤ 90) := by
    intro ⟨h65, _⟩
    have hle : c.val ≤ ('9' : Char).val := h.2
    have : c.toNat ≤ 57 := by
      simpa [Char.toNat] using hle
    omega
  simp [h2]

theorem isDigit_false_of_lower {c : Char} {d : Char} (h : c.toLower = d)
    (hd : d.isDigit = false) : c.isDigit = false := by
  cases hdig : c.isDigit with
  | false => rfl
  | true =>
    rw [toLower_of_isDigit hdig] at h
    rw [h] at hdig
    rw [hdig] at hd
    exact hd

theorem takeWhile_all_append {α : Type} (f : α → Bool) (a b : List α)
    (ha : ∀ x ∈ a, f x = true) (hb : ∀ x, b.head? = some x → f x = false) :
    (a ++ b).takeWhile f = a ∧ (a ++ b).dropWhile f = b := by
  induction a with
  | nil =>
    match b with
    | [] => exact ⟨rfl, rfl⟩
    | x :: xs =>
      constructor
      · simp [List.takeWhile_cons, hb x rfl]
      · simp [List.dropWhile_cons, hb x rfl]
  | cons c a ih =>
    have hc : f c = true := ha c (by simp)
    have ih2 := ih (fun x hx => ha x (by simp [hx]))
    constructor
    · simp only [List.cons_append, List.takeWhile_cons, hc, if_true]
      rw [ih2.1]
    · simp only [List.cons_append, List.dropWhile_cons, hc, if_true]
      rw [ih2.2]

theorem takeWhile_all {α : Type} (f : α → Bool) (a : List α)
    (ha : ∀ x ∈ a, f x = true) :
    a.takeWhile f = a ∧ a.dropWhile f = [] := by
  have := takeWhile_all_append f a [] ha (by simp)
  simpa using this

/-- A word whose first letter is not a digit forces the digit run at the
start of any casefold-preimage (optionally extended by a non-digit head) to
be empty. -/
theorem takeWhile_digit_nil_word (w b : List Char) (word : List Char)
    (hw : w.map Char.toLower = word)
    (hword : ∀ d, word.head? = some d → d.isDigit = false)
    (hb : ∀ x, b.head? = some x → x.isDigit = false) :
    (w ++ b).takeWhile Char.isDigit = [] := by
  match w with
  | [] =>
    match b with
    | [] => rfl
    | x :: xs => simp [List.takeWhile_cons, hb x rfl]
  | c :: w2 =>
    have hh : (Char.toLower c).isDigit = false := by
      apply hword
      rw [← hw]
      rfl
    have hcd : c.isDigit = false := isDigit_false_of_lower rfl hh
    simp [List.takeWhile_cons, hcd]

/-! ### Helper lemmas: the index alias regex -/

theorem matchIndexAlias_iff (p : Path) : matchIndexAlias p = true ↔ IndexShape p := by
  match p with
  | [] =>
    constructor
    · intro h
      simp [matchIndexAlias] at h
    · rintro (h | ⟨ds, hne, hdig, h | h⟩)
      · exact absurd h (by simp)
      · exact absurd h (by simp)
      · exact absurd h (by simp)
  | c :: rest =>
    simp only [matchIndexAlias, decide_eq_true_eq]
    constructor
    · rintro ⟨hc, h | ⟨hds, hrem⟩⟩
      · subst hc
        subst h
        exact Or.inl rfl
      · subst hc
        right
        have h3 : rest = rest.takeWhile Char.isDigit ++ rest.dropWhile Char.isDigit :=
          (List.takeWhile_append_dropWhile _ _).symm

        refine ⟨rest.takeWhile Char.isDigit, hds,
          fun d hd => List.mem_takeWhile_imp hd, ?_⟩
        rcases hrem with h2 | h2
        · left
          rw [h2, List.append_nil] at h3
          rw [← h3]
        · right
          rw [h2] at h3
          rw [← h3]
    · rintro (h | ⟨ds, hne, hdig, h | h⟩)
      · injection h with hc hrest
        exact ⟨hc, Or.inl hrest⟩
      · injection h with hc hrest
        have hds := takeWhile_all Char.isDigit ds hdig
        rw [hrest, hds.1, hds.2]
        exact ⟨hc, Or.inr ⟨hne, Or.inl rfl⟩⟩
      · injection h with hc hrest
        have hds := takeWhile_all_append Char.isDigit ds ['/'] hdig
          (fun x hx => by cases hx; rfl)
        rw [hrest, hds.1, hds.2]
        exact ⟨hc, Or.inr ⟨hne, Or.inr rfl⟩⟩

/-! ### Helper lemmas: the editor/fullscreen alias regexes -/

theorem ciMatch_iff (q word : List Char) :
    ciMatch q word = true ↔
      (q.map Char.toLower = word ∨
        (∃ w, w.map Char.toLower = word ∧ q = w ++ ['/'])) := by
  unfold ciMatch
  rw [decide_eq_true_eq]
  constructor
  · rintro (h | ⟨hlast, hdl⟩)
    · exact Or.inl h
    · right
      exact ⟨q.dropLast, hdl, (List.dropLast_append_getLast? '/' hlast).symm⟩
  · rintro (h | ⟨w, hw, hq⟩)
    · exact Or.inl h
    · subst hq
      right
      refine ⟨List.getLast?_concat w, ?_⟩
      rw [List.dropLast_concat]
      exact hw

theorem dropWhile_head_slash {f : Char → Bool} {rest : List Char}
    (hh : (rest.dropWhile f).head? = some '/') :
    rest.dropWhile f = '/' :: (rest.dropWhile f).tail := by
  match hx : rest.dropWhile f with
  | [] =>
    rw [hx] at hh
    exact absurd hh (by simp)
  | y :: ys =>
    rw [hx] at hh
    injection hh with hy
    rw [hy]
    rfl

theorem matchWordAlias_iff (word : List Char) (p : Path)
    (hword : ∀ d, word.head? = some d → d.isDigit = false) :
    matchWordAlias word p = true ↔ WordShape word p := by
  match p with
  | [] =>
    constructor
    · intro h
      simp [matchWordAlias] at h
    · rintro (⟨w, hw, h | h⟩ | ⟨ds, w, hne, hdig, hw, h | h⟩)
      · exact absurd h (by simp)
      · exact absurd h (by simp)
      · exact absurd h (by simp)
      · exact absurd h (by simp)
  | c :: rest =>
    simp only [matchWordAlias]
    constructor
    · intro h
      by_cases hc : c = '/'
      · rw [if_pos hc] at h
        subst hc
        by_cases hds : rest.takeWhile Char.isDigit = []
        · rw [if_pos hds] at h
          rcases (ciMatch_iff rest word).mp h with h2 | ⟨w, hw, hq⟩
          · exact Or.inl ⟨rest, h2, Or.inl rfl⟩
          · exact Or.inl ⟨w, hw, Or.inr (by rw [hq])⟩
        · rw [if_neg hds] at h
          by_cases hh : (rest.dropWhile Char.isDigit).head? = some '/'
          · rw [if_pos hh] at h
            right
            have h3 : rest = rest.takeWhile Char.isDigit ++ rest.dropWhile Char.isDigit :=
              (List.takeWhile_append_dropWhile _ _).symm
            have hdw := dropWhile_head_slash hh
            rcases (ciMatch_iff ((rest.dropWhile Char.isDigit).tail) word).mp h with
              h2 | ⟨w, hw, hq⟩
            · refine ⟨rest.takeWhile Char.isDigit, (rest.dropWhile Char.isDigit).tail,
                hds, fun d hd => List.mem_takeWhile_imp hd, h2, Or.inl ?_⟩
              rw [hdw] at h3
              rw [← h3]
            · refine ⟨rest.takeWhile Char.isDigit, w,
                hds, fun d hd => List.mem_takeWhile_imp hd, hw, Or.inr ?_⟩
              rw [hdw, hq] at h3
              rw [← h3]
          · rw [if_neg hh] at h
            exact absurd h (by simp)
      · rw [if_neg hc] at h
        exact absurd h (by simp)
    · rintro (⟨w, hw, hp | hp⟩ | ⟨ds, w, hne, hdig, hw, hp | hp⟩)
      · injection hp with hc hrest
        rw [if_pos hc]
        have hds : w.takeWhile Char.isDigit = [] := by
          have := takeWhile_digit_nil_word w [] word (by simpa using hw) hword (by simp)
          simpa using this
        rw [hrest, if_pos hds]
        exact (ciMatch_iff w word).mpr (Or.inl hw)
      · injection hp with hc hrest
        rw [if_pos hc]
        have hds : (w ++ ['/']).takeWhile Char.isDigit = [] :=
          takeWhile_digit_nil_word w ['/'] word hw hword
            (fun x hx => by cases hx; rfl)
        rw [hrest, if_pos hds]
        exact (ciMatch_iff (w ++ ['/']) word).mpr (Or.inr ⟨w, hw, rfl⟩)
      · injection hp with hc hrest
        rw [if_pos hc]
        have hsp := takeWhile_all_append Char.isDigit ds ('/' :: w) hdig
          (fun x hx => by cases hx; rfl)
        rw [hrest, hsp.1, hsp.2, if_neg hne]
        rw [if_pos (show (('/' :: w : List Char)).head? = some '/' from rfl)]
        exact (ciMatch_iff w word).mpr (Or.inl hw)
      · injection hp with hc hrest
        rw [if_pos hc]
        have hsp := takeWhile_all_append Char.isDigit ds ('/' :: (w ++ ['/'])) hdig
          (fun x hx => by cases hx; rfl)
        rw [hrest, hsp.1, hsp.2, if_neg hne]
        rw [if_pos (show (('/' :: (w ++ ['/']) : List Char)).head? = some '/' from rfl)]
        exact (ciMatch_iff (w ++ ['/']) word).mpr (Or.inr ⟨w, hw, rfl⟩)

/-! ### Helper lemmas: the branch prefix regex -/

theorem branchSplit_iff (p pfx rem : Path) :
    branchSplit p = some (pfx, rem) ↔ BranchShape p pfx rem := by
  match p with
  | [] =>
    constructor
    · intro h
      simp [branchSplit] at h
    · rintro ⟨seg, rest, hne, hbc, h, _⟩
      exact absurd h (by simp)
  | c :: rest =>
    simp only [branchSplit]
    constructor
    · intro h
      by_cases hc : c = '/'
      · rw [if_pos hc] at h
        subst hc
        by_cases hseg : rest.takeWhile branchChar = []
        · rw [if_pos hseg] at h
          exact absurd h (by simp)
        · rw [if_neg hseg] at h
          by_cases hh : (rest.dropWhile branchChar).head? = some '/'
          · rw [if_pos hh] at h
            injection h with h2
            injection h2 with hpfx hrem
            have h3 : rest = rest.takeWhile branchChar ++ rest.dropWhile branchChar :=
              (List.takeWhile_append_dropWhile _ _).symm
            have hdw := dropWhile_head_slash hh
            refine ⟨rest.takeWhile branchChar, (rest.dropWhile branchChar).tail,
              hseg, fun d hd => List.mem_takeWhile_imp hd, ?_, hpfx.symm, ?_⟩
            · rw [hdw] at h3
              rw [← h3]
            · rw [← hrem]
              exact hdw
          · rw [if_neg hh] at h
            exact absurd h (by simp)
      · rw [if_neg hc] at h
        exact absurd h (by simp)
    · rintro ⟨seg, rest2, hne, hbc, hp, hpfx, hrem⟩
      injection hp with hc hrest
      rw [if_pos hc]
      have hsp := takeWhile_all_append branchChar seg ('/' :: rest2) hbc
        (fun x hx => by cases hx; rfl)
      rw [hrest, hsp.1, hsp.2, if_neg hne]
      rw [if_pos (show (('/' :: rest2 : List Char)).head? = some '/' from rfl)]
      rw [hpfx, hrem]

theorem branchSplit_none_of_noshape (p : Path)
    (h : ∀ pfx rem, ¬BranchShape p pfx rem) : branchSplit p = none := by
  match hb : branchSplit p with
  | none => rfl
  | some (pfx, rem) => exact absurd ((branchSplit_iff p pfx rem).mp hb) (h pfx rem)

/-! ### Claim theorems -/

theorem branchChar_of_digit (c : Char) (h : c.isDigit = true) : branchChar c = true := by
  simp [branchChar, Char.isAlphanum, h]

/-- C1: the claim says every failed file resolution (missing candidate,
directory without index.html, stat error) yields status 404 with body
exactly `404 Not Found`. The code instead crashes: line 169 destructures
the `null` returned by `findFile`, the thrown `TypeError` reaches the error
middleware, and the client receives 500 `Internal server error`. This
theorem evaluates the pipeline at a missing file and at a directory without
an index file: both produce the 500 response, which differs from the 404
response the claim requires. -/
theorem resolution_failure_surfaces_500 :
    handleRequest demoHosts demoTypes emptyFs
      ⟨"example.com".data, "/no/such/file.png".data, []⟩ =
      (internalErrorResponse, ["/var/www/no/such/file.png".data]) ∧
    handleRequest demoHosts demoTypes dirOnlyFs
      ⟨"example.com".data, "/blog".data, []⟩ =
      (internalErrorResponse, ["/var/www/blog".data, "/var/www/blog/index.html".data]) ∧
    internalErrorResponse = Outcome.plain 500 textPlain ("Internal server error".data) ∧
    internalErrorResponse ≠ notFoundResponse := by
  exact ⟨by decide, by decide, rfl, by decide⟩

/-- C6: a request whose hostname is not a key of the host table receives
status 400, content type text/plain, body exactly `Invalid Host`; the
pipeline does no path mapping, no joining, and hands no path to the
filesystem (the access log is empty and the outcome is independent of the
filesystem, the type table, and the request path). -/
theorem unknown_host_invalid :
    ∀ (hosts : List (List Char × HostCfg)) (types : List (List Char × FileType))
      (fs : Fs) (req : Request),
      lookupTable hosts req.hostname = none →
      handleRequest hosts types fs req = (invalidHostResponse, []) ∧
      invalidHostResponse = Outcome.plain 400 textPlain ("Invalid Host".data) := by
  intro hosts types fs req h
  exact ⟨handleRequest_unknown hosts types fs req h, rfl⟩

theorem unknown_host_invalid_witness :
    handleRequest demoHosts demoTypes blogFs
      ⟨"evil.example.com".data, "/x".data, []⟩ = (invalidHostResponse, []) ∧
    invalidHostResponse = Outcome.plain 400 textPlain ("Invalid Host".data) :=
  unknown_host_invalid demoHosts demoTypes blogFs
    ⟨"evil.example.com".data, "/x".data, []⟩ (by decide)

/-- C3 counterexample: the claim says the pre-join filter accepts every
character of the set letters, digits, dot, underscore, hyphen, slash,
tilde, and in particular that a path with an underscore (such as the
logical path built from branch prefix of the word my underscore branch)
passes the filter. In the code the regex class has no underscore: the
branch matcher accepts the underscore branch name and maps the request to
its index.html, but the filter then rejects that logical path, so the
request is answered 404 with no filesystem access. -/
theorem underscore_rejected_counterexample :
    hasBadChar ("/my_branch/index.html".data) = true ∧
    pathNameOf true ("/my_branch/".data) = "/my_branch/index.html".data ∧
    handleRequest [("b.example.com".data, ⟨"/var/www".data, true⟩)] demoTypes blogFs
      ⟨"b.example.com".data, "/my_branch/".data, []⟩ = (notFoundResponse, []) := by
  exact ⟨by decide, by decide, by decide⟩

/-- C3 (amended): the pre-join character filter rejects a logical path
exactly when it contains a character outside the set letters, digits, dot,
hyphen, slash, tilde — the underscore is not in the class, so a path
containing one (e.g. produced from an underscore branch prefix) is
rejected; a rejected request is answered as not found before any join or
filesystem access. -/
theorem char_filter_exact_set :
    (∀ p : Path, hasBadChar p = true ↔ ∃ c ∈ p, allowedChar c = false) ∧
    allowedChar '_' = false ∧
    (∀ (hosts : List (List Char × HostCfg)) (types : List (List Char × FileType))
      (fs : Fs) (req : Request) (host : HostCfg),
      lookupTable hosts req.hostname = some host →
      hasBadChar (pathNameOf host.branches req.reqPath) = true →
      handleRequest hosts types fs req = (notFoundResponse, [])) := by
  refine ⟨?_, by decide, ?_⟩
  · intro p
    unfold hasBadChar
    rw [List.any_eq_true]
    constructor
    · rintro ⟨c, hc, hb⟩
      exact ⟨c, hc, by simpa using hb⟩
    · rintro ⟨c, hc, hb⟩
      exact ⟨c, hc, by simp [hb]⟩
  · intro hosts types fs req host h1 h2
    exact handleRequest_badchar hosts types fs req host h1 h2

theorem char_filter_exact_set_witness :
    handleRequest demoHosts demoTypes blogFs
      ⟨"example.com".data, "/my_branch/a".data, []⟩ = (notFoundResponse, []) :=
  char_filter_exact_set.2.2 demoHosts demoTypes blogFs
    ⟨"example.com".data, "/my_branch/a".data, []⟩ ⟨"/var/www".data, false⟩
    (by decide) (by decide)

/-- C4: encoding negotiation walks the configured encoding list in its
configured order and returns the first variant that is in the client's
accepted set and whose file `<base>.<suffix>` exists as a regular file
(conjunct 1: the result is `find?` over the configured list); the client's
declared order is irrelevant — only membership in the accepted set matters
(conjunct 2); and when no variant is both accepted and present the
unencoded base file is served with no Content-Encoding (conjunct 3). -/
theorem encoding_negotiation_order :
    (∀ (fs : Fs) (acc : List (List Char)) (base : Path) (encs : List EncodingSpec),
      (chooseEncoding fs acc base encs).1 =
        (encs.find? (variantOk fs acc base)).map
          (fun e => (e.name, base ++ '.' :: e.extension))) ∧
    (∀ (fs : Fs) (acc acc2 : List (List Char)) (base : Path) (encs : List EncodingSpec),
      (∀ nm, nm ∈ acc ↔ nm ∈ acc2) →
      (chooseEncoding fs acc base encs).1 = (chooseEncoding fs acc2 base encs).1) ∧
    (∀ (hosts : List (List Char × HostCfg)) (types : List (List Char × FileType))
      (fs : Fs) (req : Request) (host : HostCfg) (cand p0 : Path) (m0 : Nat)
      (ftype : FileType) (c : List Nat),
      lookupTable hosts req.hostname = some host →
      hasBadChar (pathNameOf host.branches req.reqPath) = false →
      safeJoin (normRoot host.root) (pathNameOf host.branches req.reqPath) = some cand →
      (findFile fs cand).1 = some (p0, m0) →
      lookupTable types (extname p0) = some ftype →
      (chooseEncoding fs req.acceptedEncodings p0 ftype.encodings).1 = none →
      readFileFs fs p0 = some c →
      (handleRequest hosts types fs req).1 =
        Outcome.served ⟨ftype.type, m0, none, !ftype.encodings.isEmpty,
          (presetCacheControl req.reqPath).getD ("no-cache".data), c⟩) := by
  refine ⟨chooseEncoding_eq_find, chooseEncoding_acc_congr, ?_⟩
  intro hosts types fs req host cand p0 m0 ftype c h1 h2 h3 h4 h5 hnone hread
  have h6 : readFileFs fs
      (pickPath (chooseEncoding fs req.acceptedEncodings p0 ftype.encodings).1 p0) = some c := by
    rw [hnone]
    exact hread
  rw [handleRequest_served hosts types fs req host cand p0 m0 ftype c h1 h2 h3 h4 h5 h6, hnone]
  rfl

theorem encoding_negotiation_order_witness :
    ((chooseEncoding gzFs ["br".data, "gzip".data] ("/var/www/a.js".data)
      [⟨"gzip".data, "gz".data⟩, ⟨"br".data, "br".data⟩]).1 =
      (([⟨"gzip".data, "gz".data⟩, ⟨"br".data, "br".data⟩] :
          List EncodingSpec).find?
        (variantOk gzFs ["br".data, "gzip".data] ("/var/www/a.js".data))).map
        (fun e => (e.name, "/var/www/a.js".data ++ '.' :: e.extension))) ∧
    (chooseEncoding gzFs ["br".data, "gzip".data] ("/var/www/a.js".data)
      [⟨"gzip".data, "gz".data⟩, ⟨"br".data, "br".data⟩]).1 =
    (chooseEncoding gzFs ["gzip".data, "br".data] ("/var/www/a.js".data)
      [⟨"gzip".data, "gz".data⟩, ⟨"br".data, "br".data⟩]).1 ∧
    (handleRequest demoHosts demoTypes gzFs ⟨"example.com".data, "/a.js".data, []⟩).1 =
      Outcome.served ⟨("text/javascript".data), 3, none,
        !(⟨"text/javascript".data,
          [⟨"gzip".data, "gz".data⟩, ⟨"br".data, "br".data⟩]⟩ : FileType).encodings.isEmpty,
        (presetCacheControl ("/a.js".data)).getD ("no-cache".data), [1, 2]⟩ := by
  refine ⟨?_, ?_, ?_⟩
  · exact encoding_negotiation_order.1 gzFs ["br".data, "gzip".data] ("/var/www/a.js".data)
      [⟨"gzip".data, "gz".data⟩, ⟨"br".data, "br".data⟩]
  · exact encoding_negotiation_order.2.1 gzFs ["br".data, "gzip".data]
      ["gzip".data, "br".data] ("/var/www/a.js".data)
      [⟨"gzip".data, "gz".data⟩, ⟨"br".data, "br".data⟩]
      (by intro nm; simp [List.mem_cons]; tauto)
  · exact encoding_negotiation_order.2.2 demoHosts demoTypes gzFs
      ⟨"example.com".data, "/a.js".data, []⟩ ⟨"/var/www".data, false⟩
      ("/var/www/a.js".data) ("/var/www/a.js".data) 3
      ⟨"text/javascript".data, [⟨"gzip".data, "gz".data⟩, ⟨"br".data, "br".data⟩]⟩
      [1, 2] (by decide) (by decide) (by decide) (by decide) (by decide)
      (by decide) (by decide)

/-- C7: when the joined candidate is a directory and `<candidate>/index.html`
is a regular file, the resolver returns that index file and its modification
time (conjunct 1), so a successful response carries the index file's content
as body and its mtime as Last-Modified, not the directory's (conjunct 3,
for a type with no configured encodings); a directory without such an index
file makes the resolver signal not-found, i.e. `findFile` returns `null`
(conjunct 2). -/
theorem directory_index_resolution :
    (∀ (fs : Fs) (cand : Path) (m : Nat) (c : List Nat),
      statFile fs cand = some FsNode.dir →
      statFile fs (pathJoin cand indexHtml) = some (FsNode.file m c) →
      findFile fs cand =
        (some (pathJoin cand indexHtml, m), [cand, pathJoin cand indexHtml])) ∧
    (∀ (fs : Fs) (cand : Path),
      statFile fs cand = some FsNode.dir →
      (∀ m c, statFile fs (pathJoin cand indexHtml) ≠ some (FsNode.file m c)) →
      (findFile fs cand).1 = none) ∧
    (∀ (hosts : List (List Char × HostCfg)) (types : List (List Char × FileType))
      (fs : Fs) (req : Request) (host : HostCfg) (cand : Path) (m : Nat)
      (c : List Nat) (ftype : FileType),
      lookupTable hosts req.hostname = some host →
      hasBadChar (pathNameOf host.branches req.reqPath) = false →
      safeJoin (normRoot host.root) (pathNameOf host.branches req.reqPath) = some cand →
      statFile fs cand = some FsNode.dir →
      statFile fs (pathJoin cand indexHtml) = some (FsNode.file m c) →
      lookupTable types (extname (pathJoin cand indexHtml)) = some ftype →
      ftype.encodings = [] →
      (handleRequest hosts types fs req).1 =
        Outcome.served ⟨ftype.type, m, none, false,
          (presetCacheControl req.reqPath).getD ("no-cache".data), c⟩) := by
  refine ⟨findFile_dir_index, findFile_dir_noindex, ?_⟩
  intro hosts types fs req host cand m c ftype h1 h2 h3 hdir hidx h5 hencs
  have h4 : (findFile fs cand).1 = some (pathJoin cand indexHtml, m) := by
    rw [findFile_dir_index fs cand m c hdir hidx]
  have hce : chooseEncoding fs req.acceptedEncodings (pathJoin cand indexHtml)
      ftype.encodings = (none, []) := by
    rw [hencs]
    rfl
  have h6 : readFileFs fs
      (pickPath (chooseEncoding fs req.acceptedEncodings (pathJoin cand indexHtml)
        ftype.encodings).1 (pathJoin cand indexHtml)) = some c := by
    rw [hce]
    show readFileFs fs (pathJoin cand indexHtml) = some c
    unfold readFileFs
    rw [hidx]
  rw [handleRequest_served hosts types fs req host cand (pathJoin cand indexHtml) m ftype c
    h1 h2 h3 h4 h5 h6, hce, hencs]
  rfl

theorem directory_index_resolution_witness :
    (handleRequest demoHosts demoTypes blogFs
      ⟨"example.com".data, "/blog/".data, []⟩).1 =
      Outcome.served ⟨("text/html".data), 7, none, false,
        (presetCacheControl ("/blog/".data)).getD ("no-cache".data), [104, 105]⟩ :=
  directory_index_resolution.2.2 demoHosts demoTypes blogFs
    ⟨"example.com".data, "/blog/".data, []⟩ ⟨"/var/www".data, false⟩
    ("/var/www/blog/".data) 7 [104, 105] ⟨"text/html".data, []⟩
    (by decide) (by decide) (by decide) (by decide) (by decide) (by decide) rfl

/-- C8: whenever the pipeline serves a response, the Last-Modified value is
the modification time of the base file found by the resolver — also when an
encoded variant was chosen and its bytes are the body (the conclusion holds
for every negotiation result, and the witness exercises a chosen gzip
variant whose own mtime differs). -/
theorem last_modified_from_base :
    ∀ (hosts : List (List Char × HostCfg)) (types : List (List Char × FileType))
      (fs : Fs) (req : Request) (host : HostCfg) (cand p0 : Path) (m0 : Nat)
      (ftype : FileType) (c : List Nat),
      lookupTable hosts req.hostname = some host →
      hasBadChar (pathNameOf host.branches req.reqPath) = false →
      safeJoin (normRoot host.root) (pathNameOf host.branches req.reqPath) = some cand →
      (findFile fs cand).1 = some (p0, m0) →
      lookupTable types (extname p0) = some ftype →
      readFileFs fs
        (pickPath (chooseEncoding fs req.acceptedEncodings p0 ftype.encodings).1 p0) = some c →
      ∃ resp, (handleRequest hosts types fs req).1 = Outcome.served resp ∧
        resp.lastModified = m0 := by
  intro hosts types fs req host cand p0 m0 ftype c h1 h2 h3 h4 h5 h6
  exact ⟨⟨ftype.type, m0,
    Option.map Prod.fst (chooseEncoding fs req.acceptedEncodings p0 ftype.encodings).1,
    !ftype.encodings.isEmpty, (presetCacheControl req.reqPath).getD ("no-cache".data), c⟩,
    by rw [handleRequest_served hosts types fs req host cand p0 m0 ftype c h1 h2 h3 h4 h5 h6],
    rfl⟩

theorem last_modified_from_base_witness :
    ∃ resp, (handleRequest demoHosts demoTypes gzFs
      ⟨"example.com".data, "/a.js".data, ["br".data, "gzip".data]⟩).1 =
      Outcome.served resp ∧ resp.lastModified = 3 :=
  last_modified_from_base demoHosts demoTypes gzFs
    ⟨"example.com".data, "/a.js".data, ["br".data, "gzip".data]⟩
    ⟨"/var/www".data, false⟩ ("/var/www/a.js".data) ("/var/www/a.js".data) 3
    ⟨"text/javascript".data, [⟨"gzip".data, "gz".data⟩, ⟨"br".data, "br".data⟩]⟩
    [33] (by decide) (by decide) (by decide) (by decide) (by decide) (by decide)

/-- C9: on a served response the Vary header flag equals "the resolved file
type has at least one configured encoding" — also when no encoding was
applied to this response — and the Content-Encoding field is exactly the
name of the chosen variant, present if and only if negotiation chose one. -/
theorem vary_and_content_encoding :
    ∀ (hosts : List (List Char × HostCfg)) (types : List (List Char × FileType))
      (fs : Fs) (req : Request) (host : HostCfg) (cand p0 : Path) (m0 : Nat)
      (ftype : FileType) (c : List Nat),
      lookupTable hosts req.hostname = some host →
      hasBadChar (pathNameOf host.branches req.reqPath) = false →
      safeJoin (normRoot host.root) (pathNameOf host.branches req.reqPath) = some cand →
      (findFile fs cand).1 = some (p0, m0) →
      lookupTable types (extname p0) = some ftype →
      readFileFs fs
        (pickPath (chooseEncoding fs req.acceptedEncodings p0 ftype.encodings).1 p0) = some c →
      ∃ resp, (handleRequest hosts types fs req).1 = Outcome.served resp ∧
        resp.vary = !ftype.encodings.isEmpty ∧
        resp.contentEncoding =
          Option.map Prod.fst (chooseEncoding fs req.acceptedEncodings p0 ftype.encodings).1 := by
  intro hosts types fs req host cand p0 m0 ftype c h1 h2 h3 h4 h5 h6
  exact ⟨⟨ftype.type, m0,
    Option.map Prod.fst (chooseEncoding fs req.acceptedEncodings p0 ftype.encodings).1,
    !ftype.encodings.isEmpty, (presetCacheControl req.reqPath).getD ("no-cache".data), c⟩,
    by rw [handleRequest_served hosts types fs req host cand p0 m0 ftype c h1 h2 h3 h4 h5 h6],
    rfl, rfl⟩

theorem vary_and_content_encoding_witness :
    ∃ resp, (handleRequest demoHosts demoTypes gzFs
      ⟨"example.com".data, "/a.js".data, []⟩).1 = Outcome.served resp ∧
      resp.vary = !(⟨"text/javascript".data,
        [⟨"gzip".data, "gz".data⟩, ⟨"br".data, "br".data⟩]⟩ : FileType).encodings.isEmpty ∧
      resp.contentEncoding = Option.map Prod.fst
        (chooseEncoding gzFs [] ("/var/www/a.js".data)
          (⟨"text/javascript".data,
            [⟨"gzip".data, "gz".data⟩, ⟨"br".data, "br".data⟩]⟩ : FileType).encodings).1 :=
  vary_and_content_encoding demoHosts demoTypes gzFs
    ⟨"example.com".data, "/a.js".data, []⟩ ⟨"/var/www".data, false⟩
    ("/var/www/a.js".data) ("/var/www/a.js".data) 3
    ⟨"text/javascript".data, [⟨"gzip".data, "gz".data⟩, ⟨"br".data, "br".data⟩]⟩
    [1, 2] (by decide) (by decide) (by decide) (by decide) (by decide) (by decide)

/-- C2: for every configured root (normalized at startup to end in a
separator) and request path, the safe joiner only ever returns a path with
the root as a literal prefix (conjunct 1); when it returns null the request
is answered as not found with no filesystem access (conjunct 2, empty
access log); and every absolute path the pipeline hands to the filesystem
layer — candidate, directory index probe, encoded-variant probes, and the
final read — has the normalized root as a literal prefix (conjunct 3). -/
theorem safeJoin_root_containment :
    (∀ root p q : Path, safeJoin root p = some q → root <+: q) ∧
    (∀ (hosts : List (List Char × HostCfg)) (types : List (List Char × FileType))
      (fs : Fs) (req : Request) (host : HostCfg),
      lookupTable hosts req.hostname = some host →
      safeJoin (normRoot host.root) (pathNameOf host.branches req.reqPath) = none →
      handleRequest hosts types fs req = (notFoundResponse, [])) ∧
    (∀ (hosts : List (List Char × HostCfg)) (types : List (List Char × FileType))
      (fs : Fs) (req : Request) (host : HostCfg),
      lookupTable hosts req.hostname = some host →
      ∀ q ∈ (handleRequest hosts types fs req).2, normRoot host.root <+: q) := by
  refine ⟨?_, ?_, ?_⟩
  · intro root p q h
    exact (safeJoin_eq_some root p q h).2
  · intro hosts types fs req host h1 h3
    by_cases h2 : hasBadChar (pathNameOf host.branches req.reqPath) = true
    · exact handleRequest_badchar hosts types fs req host h1 h2
    · have h2f : hasBadChar (pathNameOf host.branches req.reqPath) = false := by
        revert h2
        cases hasBadChar (pathNameOf host.branches req.reqPath) <;> simp
      exact handleRequest_nojoin hosts types fs req host h1 h2f h3
  · intro hosts types fs req host h1 q hq
    by_cases h2 : hasBadChar (pathNameOf host.branches req.reqPath) = true
    · rw [handleRequest_badchar hosts types fs req host h1 h2] at hq
      simp at hq
    · have h2f : hasBadChar (pathNameOf host.branches req.reqPath) = false := by
        revert h2
        cases hasBadChar (pathNameOf host.branches req.reqPath) <;> simp
      match h3 : safeJoin (normRoot host.root) (pathNameOf host.branches req.reqPath) with
      | none =>
        rw [handleRequest_nojoin hosts types fs req host h1 h2f h3] at hq
        simp at hq
      | some cand =>
        obtain ⟨hcand_eq, hcand_pre⟩ := safeJoin_eq_some _ _ _ h3
        have hform : cand =
            normalizeAbs (normRoot host.root ++ '/' :: pathNameOf host.branches req.reqPath) :=
          hcand_eq
        have hext := pathJoin_normalized_extends
          (normRoot host.root ++ '/' :: pathNameOf host.branches req.reqPath)
          indexHtml (by decide) (by decide)
        rw [← hform] at hext
        have hidx_pre : normRoot host.root <+: pathJoin cand indexHtml := by
          obtain ⟨t, ht⟩ := hext
          rw [ht]
          exact hcand_pre.trans (List.prefix_append cand t)
        have hmem_ff : ∀ r ∈ (findFile fs cand).2, normRoot host.root <+: r := by
          intro r hr
          rcases findFile_log fs cand with hl | hl <;> rw [hl] at hr
          · rw [List.mem_singleton] at hr
            rw [hr]
            exact hcand_pre
          · rcases List.mem_cons.mp hr with h | h
            · rw [h]
              exact hcand_pre
            · rw [List.mem_singleton] at h
              rw [h]
              exact hidx_pre
        match h4 : (findFile fs cand).1 with
        | none =>
          rw [handleRequest_nofind hosts types fs req host cand h1 h2f h3 h4] at hq
          exact hmem_ff q hq
        | some (p0, m0) =>
          have hp0 : normRoot host.root <+: p0 := by
            rcases findFile_cases fs cand p0 m0 h4 with h | h
            · rw [h]
              exact hcand_pre
            · rw [h]
              exact hidx_pre
          have hmem_ce : ∀ ftype : FileType,
              ∀ r ∈ (chooseEncoding fs req.acceptedEncodings p0 ftype.encodings).2,
                normRoot host.root <+: r := by
            intro ftype r hr
            obtain ⟨e, he, hre⟩ :=
              chooseEncoding_log_shape fs req.acceptedEncodings p0 ftype.encodings r hr
            rw [hre]
            exact hp0.trans (List.prefix_append p0 ('.' :: e.extension))
          have hpick : ∀ ftype : FileType,
              normRoot host.root <+:
                pickPath (chooseEncoding fs req.acceptedEncodings p0 ftype.encodings).1 p0 := by
            intro ftype
            match hce : (chooseEncoding fs req.acceptedEncodings p0 ftype.encodings).1 with
            | none => exact hp0
            | some x =>
              obtain ⟨e, he, hn, hpe⟩ := chooseEncoding_some_shape fs req.acceptedEncodings p0
                ftype.encodings x.1 x.2 (by rw [hce])
              show normRoot host.root <+: x.2
              rw [hpe]
              exact hp0.trans (List.prefix_append p0 ('.' :: e.extension))
          match h5 : lookupTable types (extname p0) with
          | none =>
            rw [handleRequest_notype hosts types fs req host cand p0 m0 h1 h2f h3 h4 h5] at hq
            exact hmem_ff q hq
          | some ftype =>
            match h6 : readFileFs fs
                (pickPath (chooseEncoding fs req.acceptedEncodings p0 ftype.encodings).1 p0) with
            | none =>
              rw [handleRequest_noread hosts types fs req host cand p0 m0 ftype
                h1 h2f h3 h4 h5 h6] at hq
              rcases List.mem_append.mp hq with hq2 | hq2
              · rcases List.mem_append.mp hq2 with hq3 | hq3
                · exact hmem_ff q hq3
                · exact hmem_ce ftype q hq3
              · rw [List.mem_singleton] at hq2
                rw [hq2]
                exact hpick ftype
            | some c =>
              rw [handleRequest_served hosts types fs req host cand p0 m0 ftype c
                h1 h2f h3 h4 h5 h6] at hq
              rcases List.mem_append.mp hq with hq2 | hq2
              · rcases List.mem_append.mp hq2 with hq3 | hq3
                · exact hmem_ff q hq3
                · exact hmem_ce ftype q hq3
              · rw [List.mem_singleton] at hq2
                rw [hq2]
                exact hpick ftype

theorem safeJoin_root_containment_witness :
    ("/var/www/".data <+: "/var/www/blog/".data) ∧
    handleRequest demoHosts demoTypes blogFs
      ⟨"example.com".data, "/../etc/passwd".data, []⟩ = (notFoundResponse, []) ∧
    (∀ q ∈ (handleRequest demoHosts demoTypes blogFs
        ⟨"example.com".data, "/blog/".data, []⟩).2,
      normRoot ("/var/www".data) <+: q) := by
  refine ⟨?_, ?_, ?_⟩
  · exact safeJoin_root_containment.1 ("/var/www/".data) ("/blog/".data)
      ("/var/www/blog/".data) (by decide)
  · exact safeJoin_root_containment.2.1 demoHosts demoTypes blogFs
      ⟨"example.com".data, "/../etc/passwd".data, []⟩ ⟨"/var/www".data, false⟩
      (by decide) (by decide)
  · exact safeJoin_root_containment.2.2 demoHosts demoTypes blogFs
      ⟨"example.com".data, "/blog/".data, []⟩ ⟨"/var/www".data, false⟩ (by decide)

/-- C5: the alias matchers are exactly the claimed shapes — the index alias
accepts precisely the root path or a single digit segment with optional
trailing slash (conjunct 1), the editor and fullscreen aliases accept
precisely the word, or a digit segment then the word, case-insensitively
with optional trailing slash (conjuncts 2 and 3), the branch split fires
precisely on a leading slash-bounded run of branch characters (conjunct 4)
— and the mapper applies them in the fixed priority order index, editor,
fullscreen over the branch-stripped remainder, prefixing the stripped
branch, with the original request path used verbatim when no alias rule
matches (conjunct 5). -/
theorem alias_rules_characterization :
    (∀ p : Path, matchIndexAlias p = true ↔ IndexShape p) ∧
    (∀ p : Path, matchWordAlias eWord p = true ↔ WordShape eWord p) ∧
    (∀ p : Path, matchWordAlias fWord p = true ↔ WordShape fWord p) ∧
    (∀ p pfx rem : Path, branchSplit p = some (pfx, rem) ↔ BranchShape p pfx rem) ∧
    (∀ (branches : Bool) (p : Path),
      pathNameOf branches p =
        (let pr := if branches then (branchSplit p).getD ([], p) else ([], p)
         if matchIndexAlias pr.2 then pr.1 ++ "/index.html".data
         else if matchWordAlias eWord pr.2 then pr.1 ++ "/editor.html".data
         else if matchWordAlias fWord pr.2 then pr.1 ++ "/fullscreen.html".data
         else p)) := by
  refine ⟨matchIndexAlias_iff, ?_, ?_, branchSplit_iff, ?_⟩
  · intro p
    exact matchWordAlias_iff eWord p (by decide)
  · intro p
    exact matchWordAlias_iff fWord p (by decide)
  · intro branches p
    show (logicalPathFor branches p).getD p = _
    unfold logicalPathFor
    set pr := if branches then (branchSplit p).getD ([], p) else ([], p) with hpr
    by_cases h1 : matchIndexAlias pr.2 = true
    · simp [h1]
    · by_cases h2 : matchWordAlias eWord pr.2 = true
      · simp [h1, h2]
      · by_cases h3 : matchWordAlias fWord pr.2 = true
        · simp [h1, h2, h3]
        · simp [h1, h2, h3]

theorem alias_rules_characterization_witness :
    IndexShape ("/7/".data) ∧ WordShape eWord ("/12/Editor".data) ∧
    WordShape fWord ("/fullscreen/".data) ∧
    BranchShape ("/feature-x/3/".data) ("/feature-x".data) ("/3/".data) ∧
    pathNameOf true ("/feature-x/3/".data) =
      (let pr := if true then (branchSplit ("/feature-x/3/".data)).getD
          ([], "/feature-x/3/".data) else ([], "/feature-x/3/".data)
       if matchIndexAlias pr.2 then pr.1 ++ "/index.html".data
       else if matchWordAlias eWord pr.2 then pr.1 ++ "/editor.html".data
       else if matchWordAlias fWord pr.2 then pr.1 ++ "/fullscreen.html".data
       else "/feature-x/3/".data) := by
  refine ⟨?_, ?_, ?_, ?_, ?_⟩
  · exact (alias_rules_characterization.1 ("/7/".data)).mp (by decide)
  · exact (alias_rules_characterization.2.1 ("/12/Editor".data)).mp (by decide)
  · exact (alias_rules_characterization.2.2.1 ("/fullscreen/".data)).mp (by decide)
  · exact (alias_rules_characterization.2.2.2.1 ("/feature-x/3/".data)
      ("/feature-x".data) ("/3/".data)).mp (by decide)
  · exact alias_rules_characterization.2.2.2.2 true ("/feature-x/3/".data)

/-- C10: with branches enabled, a leading all-digit segment followed by a
slash is consumed as the branch prefix and retained in the logical path —
a digit-segment root maps to that segment plus /index.html and a
digit-segment /editor path maps to the segment plus /editor.html — while
with branches disabled the same request paths take the optional-digit
alias branch and map to /index.html and /editor.html with no prefix. -/
theorem logicalPathFor_branchSome (p pfx rem : Path)
    (h : branchSplit p = some (pfx, rem)) :
    logicalPathFor true p =
      (if matchIndexAlias rem then some (pfx ++ "/index.html".data)
       else if matchWordAlias eWord rem then some (pfx ++ "/editor.html".data)
       else if matchWordAlias fWord rem then some (pfx ++ "/fullscreen.html".data)
       else none) := by
  unfold logicalPathFor
  rw [show (if true then (branchSplit p).getD ([], p) else ([], p)) = (pfx, rem) from by
    rw [h]
    rfl]

theorem logicalPathFor_noBranch (p : Path) :
    logicalPathFor false p =
      (if matchIndexAlias p then some ("/index.html".data)
       else if matchWordAlias eWord p then some ("/editor.html".data)
       else if matchWordAlias fWord p then some ("/fullscreen.html".data)
       else none) := rfl

theorem digit_segment_branch_mapping :
    ∀ ds : List Char, ds ≠ [] → (∀ c ∈ ds, c.isDigit = true) →
      pathNameOf true ('/' :: (ds ++ ['/'])) = ('/' :: ds) ++ "/index.html".data ∧
      pathNameOf true ('/' :: (ds ++ '/' :: "editor".data)) =
        ('/' :: ds) ++ "/editor.html".data ∧
      pathNameOf false ('/' :: (ds ++ ['/'])) = "/index.html".data ∧
      pathNameOf false ('/' :: (ds ++ '/' :: "editor".data)) = "/editor.html".data := by
  intro ds hne hdig
  have hbc : ∀ c ∈ ds, branchChar c = true :=
    fun c hc => branchChar_of_digit c (hdig c hc)
  refine ⟨?_, ?_, ?_, ?_⟩
  · have hsplit : branchSplit ('/' :: (ds ++ ['/'])) = some ('/' :: ds, ['/']) :=
      (branchSplit_iff _ _ _).mpr ⟨ds, [], hne, hbc, rfl, rfl, rfl⟩
    show (logicalPathFor true ('/' :: (ds ++ ['/']))).getD _ = _
    rw [logicalPathFor_branchSome _ _ _ hsplit]
    rw [if_pos (show matchIndexAlias (['/'] : Path) = true from by decide)]
    rfl
  · have hsplit : branchSplit ('/' :: (ds ++ '/' :: "editor".data)) =
        some ('/' :: ds, '/' :: "editor".data) :=
      (branchSplit_iff _ _ _).mpr ⟨ds, "editor".data, hne, hbc, rfl, rfl, rfl⟩
    show (logicalPathFor true ('/' :: (ds ++ '/' :: "editor".data))).getD _ = _
    rw [logicalPathFor_branchSome _ _ _ hsplit]
    rw [if_neg (show ¬(matchIndexAlias ('/' :: "editor".data) = true) from by decide)]
    rw [if_pos (show matchWordAlias eWord ('/' :: "editor".data) = true from by decide)]
    rfl
  · have hIdx : matchIndexAlias ('/' :: (ds ++ ['/'])) = true :=
      (matchIndexAlias_iff _).mpr (Or.inr ⟨ds, hne, hdig, Or.inr rfl⟩)
    show (logicalPathFor false ('/' :: (ds ++ ['/']))).getD _ = _
    rw [logicalPathFor_noBranch, if_pos hIdx]
    rfl
  · have hNotIdx : ¬(matchIndexAlias ('/' :: (ds ++ '/' :: "editor".data)) = true) := by
      intro hm
      rcases (matchIndexAlias_iff _).mp hm with h | ⟨ds2, hne2, hdig2, h | h⟩
      · injection h with h1 h2
        exact absurd h2 (by simp)
      · injection h with h1 h2
        have hmem : '/' ∈ ds2 := by
          rw [← h2]
          simp
        exact absurd (hdig2 '/' hmem) (by decide)
      · injection h with h1 h2
        have hlast : (ds ++ '/' :: "editor".data).getLast? = some 'r' := by
          rw [getLast?_append_of_ne_nil ds (by simp)]
          rfl
        rw [h2, List.getLast?_concat] at hlast
        exact absurd hlast (by decide)
    have hEd : matchWordAlias eWord ('/' :: (ds ++ '/' :: "editor".data)) = true :=
      (matchWordAlias_iff eWord _ (by decide)).mpr
        (Or.inr ⟨ds, "editor".data, hne, hdig, by decide, Or.inl rfl⟩)
    show (logicalPathFor false ('/' :: (ds ++ '/' :: "editor".data))).getD _ = _
    rw [logicalPathFor_noBranch, if_neg hNotIdx, if_pos hEd]
    rfl

theorem digit_segment_branch_mapping_witness :
    pathNameOf true ('/' :: ("123".data ++ ['/'])) = ('/' :: "123".data) ++ "/index.html".data ∧
    pathNameOf true ('/' :: ("123".data ++ '/' :: "editor".data)) =
      ('/' :: "123".data) ++ "/editor.html".data ∧
    pathNameOf false ('/' :: ("123".data ++ ['/'])) = "/index.html".data ∧
    pathNameOf false ('/' :: ("123".data ++ '/' :: "editor".data)) = "/editor.html".data :=
  digit_segment_branch_mapping ("123".data) (by decide) (by decide)

end StaticServer
